import Mathlib

/-!
Verification of `enorm_` from
`src/python-ios/src/scipy_files/scipy/patches/optimize/minpack/enorm.c`
(f2c translation of MINPACK's `enorm.f`).

The routine computes the Euclidean norm of an `n`-vector by accumulating
three sums of squares (large / intermediate / small magnitude buckets),
rescaling the large and small buckets by a running maximum.  We embed the
double-precision arithmetic as exact rational arithmetic (the loop state is
over `ℚ`, fully computable) and the final square roots over `ℝ`.
Each division performed by the C code is also recorded, so that absence of
zero divisors can be stated and proved.
-/

namespace Enorm

/-- The constant `rdwarf = 3.834e-20` from the C source. -/
def rdwarf : ℚ := 3834 / 10 ^ 23

/-- The constant `rgiant = 1.304e19` from the C source. -/
def rgiant : ℚ := 1304 * 10 ^ 16

/-- The local accumulator variables of `enorm_`. -/
structure EnormState where
  s1 : ℚ
  s2 : ℚ
  s3 : ℚ
  x1max : ℚ
  x3max : ℚ
deriving DecidableEq

/-- Initial values: `s1 = s2 = s3 = x1max = x3max = 0`. -/
def initState : EnormState := ⟨0, 0, 0, 0, 0⟩

/-- One iteration of the classification loop of `enorm_`, on `xabs = |x[i]|`:
first the intermediate test `rdwarf < xabs && xabs < agiant` (label `L70`),
then the small test `xabs <= rdwarf` (labels `L30`-`L50`), otherwise the
large-component update (labels `L10`-`L20`).  Besides the new state it
returns the list of divisors of the divisions performed in the iteration. -/
def stepD (agiant : ℚ) (st : EnormState) (xi : ℚ) : EnormState × List ℚ :=
  if rdwarf < |xi| ∧ |xi| < agiant then
    ({ st with s2 := st.s2 + |xi| ^ 2 }, [])
  else if |xi| ≤ rdwarf then
    if |xi| ≤ st.x3max then
      if |xi| ≠ 0 then
        ({ st with s3 := st.s3 + (|xi| / st.x3max) ^ 2 }, [st.x3max])
      else (st, [])
    else
      ({ st with s3 := 1 + st.s3 * (st.x3max / |xi|) ^ 2, x3max := |xi| }, [|xi|])
  else
    if |xi| ≤ st.x1max then
      ({ st with s1 := st.s1 + (|xi| / st.x1max) ^ 2 }, [st.x1max])
    else
      ({ st with s1 := 1 + st.s1 * (st.x1max / |xi|) ^ 2, x1max := |xi| }, [|xi|])

/-- The state transformer of one loop iteration. -/
def step (agiant : ℚ) (st : EnormState) (xi : ℚ) : EnormState :=
  (stepD agiant st xi).1

/-- The threshold `agiant = rgiant / floatn` where `floatn = (double) n`. -/
def agiantOf (n : ℕ) : ℚ := rgiant / (n : ℚ)

/-- The accumulator state after the classification loop of `enorm_` on the
vector `x` (a single left-to-right pass). -/
def enormState (x : List ℚ) : EnormState :=
  x.foldl (step (agiantOf x.length)) initState

/-- The classification loop together with the divisors of every division
performed during it, in order. -/
def loopD (agiant : ℚ) (x : List ℚ) : EnormState × List ℚ :=
  x.foldl (fun p xi => ((stepD agiant p.1 xi).1, p.2 ++ (stepD agiant p.1 xi).2))
    (initState, [])

/-- First formula of the `s2 != 0` case: `sqrt(s2 * (one + x3max / s2 * (x3max * s3)))`. -/
noncomputable def midHigh (st : EnormState) : ℝ :=
  Real.sqrt ((st.s2 * (1 + st.x3max / st.s2 * (st.x3max * st.s3)) : ℚ) : ℝ)

/-- Second formula of the `s2 != 0` case: `sqrt(x3max * (s2 / x3max + x3max * s3))`. -/
noncomputable def midLow (st : EnormState) : ℝ :=
  Real.sqrt ((st.x3max * (st.s2 / st.x3max + st.x3max * st.s3) : ℚ) : ℝ)

/-- The "calculation of norm" block of `enorm_` (labels `L100`-`L130`). -/
noncomputable def combine (st : EnormState) : ℝ :=
  if st.s1 ≠ 0 then
    (st.x1max : ℝ) * Real.sqrt ((st.s1 + st.s2 / st.x1max / st.x1max : ℚ) : ℝ)
  else if st.s2 ≠ 0 then
    if st.s2 ≥ st.x3max then midHigh st else midLow st
  else
    (st.x3max : ℝ) * Real.sqrt ((st.s3 : ℚ) : ℝ)

/-- The divisors of the divisions performed in the "calculation of norm" block. -/
def combineDivs (st : EnormState) : List ℚ :=
  if st.s1 ≠ 0 then [st.x1max, st.x1max]
  else if st.s2 ≠ 0 then
    if st.s2 ≥ st.x3max then [st.s2] else [st.x3max]
  else []

/-- The function `enorm_(n, x)`, with `n = x.length`. -/
noncomputable def enorm (x : List ℚ) : ℝ :=
  combine (enormState x)

/-- Every divisor used by an invocation `enorm_(n, x)`: the `n` of
`agiant = rgiant / floatn`, then the loop divisors, then the combine divisors. -/
def enormDivisors (x : List ℚ) : List ℚ :=
  ((x.length : ℚ)) :: ((loopD (agiantOf x.length) x).2 ++ combineDivs (enormState x))

/-- Non-negativity of all five accumulator variables. -/
def Nonneg (st : EnormState) : Prop :=
  0 ≤ st.s1 ∧ 0 ≤ st.s2 ∧ 0 ≤ st.s3 ∧ 0 ≤ st.x1max ∧ 0 ≤ st.x3max

/-- The loop invariant: the accumulators are non-negative, and a scaled sum
can only be nonzero once its pivot is. -/
def Inv (st : EnormState) : Prop :=
  Nonneg st ∧ (st.x1max = 0 → st.s1 = 0) ∧ (st.x3max = 0 → st.s3 = 0)

lemma rdwarf_pos : 0 < rdwarf := by norm_num [rdwarf]

lemma initState_inv : Inv initState := by
  refine ⟨⟨le_refl 0, le_refl 0, le_refl 0, le_refl 0, le_refl 0⟩, ?_, ?_⟩ <;>
    intro _ <;> rfl

lemma step_preserves (a xi : ℚ) (st : EnormState) (h : Inv st) :
    Inv (step a st xi) ∧ st.x1max ≤ (step a st xi).x1max ∧
      st.x3max ≤ (step a st xi).x3max := by
  obtain ⟨⟨hs1, hs2, hs3, hx1, hx3⟩, h10, h30⟩ := h
  have habs : 0 ≤ |xi| := abs_nonneg xi
  unfold step stepD
  split_ifs with hmid hsm hle hne hlge
  · -- intermediate: s2 += xabs^2
    exact ⟨⟨⟨hs1, by positivity, hs3, hx1, hx3⟩, h10, h30⟩, le_refl _, le_refl _⟩
  · -- small, accumulate: s3 += (xabs/x3max)^2
    refine ⟨⟨⟨hs1, hs2, by positivity, hx1, hx3⟩, h10, ?_⟩, le_refl _, le_refl _⟩
    intro h0
    have h0' : st.x3max = 0 := h0
    exact absurd (le_antisymm (h0' ▸ hle) habs) hne
  · -- small, xabs = 0: state unchanged
    exact ⟨⟨⟨hs1, hs2, hs3, hx1, hx3⟩, h10, h30⟩, le_refl _, le_refl _⟩
  · -- small, new max: s3 = 1 + s3*(x3max/xabs)^2, x3max = xabs
    have hlt : st.x3max < |xi| := lt_of_not_le hle
    refine ⟨⟨⟨hs1, hs2, by positivity, hx1, habs⟩, h10, ?_⟩, le_refl _, le_of_lt hlt⟩
    intro h0
    have h0' : |xi| = 0 := h0
    exfalso
    linarith
  · -- large, accumulate: s1 += (xabs/x1max)^2
    have hrd : rdwarf < |xi| := lt_of_not_le hsm
    refine ⟨⟨⟨by positivity, hs2, hs3, hx1, hx3⟩, ?_, h30⟩, le_refl _, le_refl _⟩
    intro h0
    have h0' : st.x1max = 0 := h0
    exfalso
    have := rdwarf_pos
    linarith
  · -- large, new max: s1 = 1 + s1*(x1max/xabs)^2, x1max = xabs
    have hlt : st.x1max < |xi| := lt_of_not_le hlge
    refine ⟨⟨⟨by positivity, hs2, hs3, habs, hx3⟩, ?_, h30⟩, le_of_lt hlt, le_refl _⟩
    intro h0
    have h0' : |xi| = 0 := h0
    exfalso
    have hrd : rdwarf < |xi| := lt_of_not_le hsm
    have := rdwarf_pos
    linarith

lemma foldl_preserves (a : ℚ) (l : List ℚ) (st : EnormState) (h : Inv st) :
    Inv (l.foldl (step a) st) ∧ st.x1max ≤ (l.foldl (step a) st).x1max ∧
      st.x3max ≤ (l.foldl (step a) st).x3max := by
  induction l generalizing st with
  | nil => exact ⟨h, le_refl _, le_refl _⟩
  | cons y t ih =>
    obtain ⟨h1, h2, h3⟩ := step_preserves a y st h
    obtain ⟨g1, g2, g3⟩ := ih (step a st y) h1
    exact ⟨g1, le_trans h2 g2, le_trans h3 g3⟩

lemma enormState_inv (x : List ℚ) : Inv (enormState x) :=
  (foldl_preserves _ x initState initState_inv).1

lemma step_zero (a : ℚ) (st : EnormState) (h : 0 ≤ st.x3max) :
    step a st 0 = st := by
  have h1 : ¬ rdwarf < 0 := not_lt.mpr rdwarf_pos.le
  have h2 : (0 : ℚ) ≤ rdwarf := rdwarf_pos.le
  simp [step, stepD, h1, h2, h]

lemma foldl_replicate_zero (a : ℚ) (k : ℕ) (st : EnormState) (h : Inv st) :
    (List.replicate k (0 : ℚ)).foldl (step a) st = st := by
  induction k with
  | zero => rfl
  | succ m ih =>
    rw [List.replicate_succ, List.foldl_cons, step_zero a st h.1.2.2.2.2]
    exact ih

lemma enormState_replicate_zero (n : ℕ) :
    enormState (List.replicate n (0 : ℚ)) = initState := by
  unfold enormState
  exact foldl_replicate_zero _ n initState initState_inv

lemma combine_initState : combine initState = 0 := by
  simp [combine, initState]

/-- C2: `enorm_` returns exactly `0.0` on the empty vector (`n = 0`) and on
the all-zero vector of any length, and does not fault: in the embedding the
unguarded `agiant = rgiant / n` is total (for `n = 0` the loop body never
runs, so its value is never consulted), and the result is still `0`. -/
theorem enorm_zero_vector :
    enorm ([] : List ℚ) = 0 ∧ ∀ n : ℕ, enorm (List.replicate n (0 : ℚ)) = 0 := by
  constructor
  · show combine (enormState []) = 0
    rw [show enormState [] = initState from rfl, combine_initState]
  · intro n
    show combine (enormState (List.replicate n 0)) = 0
    rw [enormState_replicate_zero, combine_initState]

lemma combine_nonneg (st : EnormState) (h : Inv st) : 0 ≤ combine st := by
  obtain ⟨⟨hs1, hs2, hs3, hx1, hx3⟩, -, -⟩ := h
  unfold combine midHigh midLow
  split_ifs
  · exact mul_nonneg (by exact_mod_cast hx1) (Real.sqrt_nonneg _)
  · exact Real.sqrt_nonneg _
  · exact Real.sqrt_nonneg _
  · exact mul_nonneg (by exact_mod_cast hx3) (Real.sqrt_nonneg _)

/-- C8: for every vector `x` (of any non-negative length), `enorm_(n, x) ≥ 0`. -/
theorem enorm_nonneg (x : List ℚ) : 0 ≤ enorm x :=
  combine_nonneg _ (enormState_inv x)

lemma stepD_divs (a xi : ℚ) (st : EnormState) (h : Inv st) :
    ∀ d ∈ (stepD a st xi).2, d ≠ 0 := by
  obtain ⟨⟨hs1, hs2, hs3, hx1, hx3⟩, -, -⟩ := h
  unfold stepD
  split_ifs with hmid hsm hle hne hlge
  · simp
  · intro d hd
    rw [List.mem_singleton] at hd
    subst hd
    have hpos : 0 < |xi| := lt_of_le_of_ne (abs_nonneg xi) (Ne.symm hne)
    exact ne_of_gt (lt_of_lt_of_le hpos hle)
  · simp
  · intro d hd
    rw [List.mem_singleton] at hd
    subst hd
    exact ne_of_gt (lt_of_le_of_lt hx3 (lt_of_not_le hle))
  · intro d hd
    rw [List.mem_singleton] at hd
    subst hd
    exact ne_of_gt (lt_of_lt_of_le (lt_trans rdwarf_pos (lt_of_not_le hsm)) hlge)
  · intro d hd
    rw [List.mem_singleton] at hd
    subst hd
    exact ne_of_gt (lt_trans rdwarf_pos (lt_of_not_le hsm))

lemma loopD_aux (a : ℚ) (l : List ℚ) (st : EnormState) (acc : List ℚ) :
    (l.foldl (fun p xi => ((stepD a p.1 xi).1, p.2 ++ (stepD a p.1 xi).2))
        (st, acc)).1 = l.foldl (step a) st ∧
      (Inv st → (∀ d ∈ acc, d ≠ 0) →
        ∀ d ∈ (l.foldl (fun p xi => ((stepD a p.1 xi).1, p.2 ++ (stepD a p.1 xi).2))
          (st, acc)).2, d ≠ 0) := by
  induction l generalizing st acc with
  | nil => exact ⟨rfl, fun _ hacc => hacc⟩
  | cons y t ih =>
    rw [List.foldl_cons, List.foldl_cons]
    refine ⟨(ih (step a st y) (acc ++ (stepD a st y).2)).1, ?_⟩
    intro hst hacc
    refine (ih (step a st y) (acc ++ (stepD a st y).2)).2
      (step_preserves a y st hst).1 ?_
    intro d hd
    rcases List.mem_append.mp hd with h | h
    · exact hacc d h
    · exact stepD_divs a y st hst d h

lemma combineDivs_ne_zero (st : EnormState) (h : Inv st) :
    ∀ d ∈ combineDivs st, d ≠ 0 := by
  obtain ⟨⟨hs1, hs2, hs3, hx1, hx3⟩, h10, h30⟩ := h
  unfold combineDivs
  split_ifs with h1 h2 h3
  · intro d hd
    have hx : st.x1max ≠ 0 := fun h0 => h1 (h10 h0)
    rcases List.mem_cons.mp hd with h' | h'
    · exact h' ▸ hx
    · rw [List.mem_singleton] at h'
      exact h' ▸ hx
  · intro d hd
    rw [List.mem_singleton] at hd
    exact hd ▸ h2
  · intro d hd
    rw [List.mem_singleton] at hd
    subst hd
    exact ne_of_gt (lt_of_le_of_lt hs2 (lt_of_not_le h3))
  · simp

/-- C3: for any input vector with `n ≥ 1`, no division performed by `enorm_`
has a zero divisor: not the `agiant = rgiant / floatn` computation, none of
the scaled-accumulation divisions of the classification loop (the first
nonzero small element always takes the new-max branch, so `x3max > 0` in the
small `else` branch, and likewise `x1max > 0` in the large `else` branch),
and none of the divisions of the final combine step. -/
theorem enorm_divisors_ne_zero (x : List ℚ) (h : 1 ≤ x.length) :
    ∀ d ∈ enormDivisors x, d ≠ 0 := by
  intro d hd
  unfold enormDivisors at hd
  rcases List.mem_cons.mp hd with h0 | h0
  · subst h0
    exact Nat.cast_ne_zero.mpr (by omega)
  · rcases List.mem_append.mp h0 with h1 | h1
    · unfold loopD at h1
      exact (loopD_aux (agiantOf x.length) x initState []).2 initState_inv
        (by simp) d h1
    · exact combineDivs_ne_zero _ (enormState_inv x) d h1

/-- Witness for C3 at the concrete vector `[1]` (length `1`; classified
intermediate; combine uses the `s2 >= x3max` branch, divisor `s2 = 1`). -/
theorem enorm_divisors_ne_zero_witness :
    1 ≤ ([(1 : ℚ)]).length ∧ ∀ d ∈ enormDivisors [(1 : ℚ)], d ≠ 0 :=
  ⟨by decide, enorm_divisors_ne_zero [(1 : ℚ)] (by decide)⟩

/-- Follows the spec's words (§4.1, step 4): the combine step with the
tie-break `s1 != 0`, then `s2 != 0` selecting between the two rearranged
formulas by comparing `s2` with `x3max`, else `x3max * sqrt(s3)`. -/
noncomputable def combineSpec (st : EnormState) : ℝ :=
  if st.s1 ≠ 0 then
    (st.x1max : ℝ) * Real.sqrt ((st.s1 + (st.s2 / st.x1max) / st.x1max : ℚ) : ℝ)
  else if st.s2 ≠ 0 then
    if st.s2 ≥ st.x3max then
      Real.sqrt ((st.s2 * (1 + (st.x3max / st.s2) * (st.x3max * st.s3)) : ℚ) : ℝ)
    else
      Real.sqrt ((st.x3max * (st.s2 / st.x3max + st.x3max * st.s3) : ℚ) : ℝ)
  else (st.x3max : ℝ) * Real.sqrt ((st.s3 : ℚ) : ℝ)

/-- C4: after the classification loop the result is combined exactly by the
specified tie-break (`s1 != 0`, then `s2 != 0` comparing `s2` with `x3max`,
else `x3max * sqrt(s3)`), and on the all-zero vector `x3max` is `0` and the
result is `0.0`. -/
theorem enorm_combine_spec (x : List ℚ) :
    enorm x = combineSpec (enormState x) ∧
      ∀ n : ℕ, (enormState (List.replicate n (0 : ℚ))).x3max = 0 ∧
        enorm (List.replicate n (0 : ℚ)) = 0 := by
  refine ⟨rfl, fun n => ⟨?_, ?_⟩⟩
  · rw [enormState_replicate_zero]
    rfl
  · show combine (enormState (List.replicate n 0)) = 0
    rw [enormState_replicate_zero, combine_initState]

/-- C6: the two formulas of the `s2 != 0` case are equivalent rearrangements:
for `s2 > 0` and `x3max > 0`, both equal `sqrt(s2 + x3max^2 * s3)` in exact
arithmetic, so the comparison `s2 >= x3max` only selects between equivalent
expressions. -/
theorem mid_formulas_equiv (st : EnormState) (h2 : 0 < st.s2)
    (h3 : 0 < st.x3max) :
    midHigh st = Real.sqrt ((st.s2 + st.x3max ^ 2 * st.s3 : ℚ) : ℝ) ∧
      midLow st = Real.sqrt ((st.s2 + st.x3max ^ 2 * st.s3 : ℚ) : ℝ) := by
  have h2' : st.s2 ≠ 0 := ne_of_gt h2
  have h3' : st.x3max ≠ 0 := ne_of_gt h3
  constructor
  · have e : st.s2 * (1 + st.x3max / st.s2 * (st.x3max * st.s3))
        = st.s2 + st.x3max ^ 2 * st.s3 := by
      field_simp
      ring
    unfold midHigh
    rw [e]
  · have e : st.x3max * (st.s2 / st.x3max + st.x3max * st.s3)
        = st.s2 + st.x3max ^ 2 * st.s3 := by
      field_simp
      ring
    unfold midLow
    rw [e]

/-- Witness for C6 at the concrete state `s1 = 0, s2 = 2, s3 = 5, x1max = 0,
x3max = 3`. -/
theorem mid_formulas_equiv_witness :
    0 < (⟨0, 2, 5, 0, 3⟩ : EnormState).s2 ∧
      0 < (⟨0, 2, 5, 0, 3⟩ : EnormState).x3max ∧
      (midHigh ⟨0, 2, 5, 0, 3⟩
          = Real.sqrt ((((⟨0, 2, 5, 0, 3⟩ : EnormState)).s2
            + ((⟨0, 2, 5, 0, 3⟩ : EnormState)).x3max ^ 2
              * ((⟨0, 2, 5, 0, 3⟩ : EnormState)).s3 : ℚ) : ℝ) ∧
        midLow ⟨0, 2, 5, 0, 3⟩
          = Real.sqrt ((((⟨0, 2, 5, 0, 3⟩ : EnormState)).s2
            + ((⟨0, 2, 5, 0, 3⟩ : EnormState)).x3max ^ 2
              * ((⟨0, 2, 5, 0, 3⟩ : EnormState)).s3 : ℚ) : ℝ)) :=
  ⟨by decide, by decide, mid_formulas_equiv ⟨0, 2, 5, 0, 3⟩ (by decide) (by decide)⟩

/-- The accumulator state after `enorm_` has processed the first `p.length`
elements of a run on the vector `x` (so `agiant = rgiant / x.length`). -/
def stateAfter (x p : List ℚ) : EnormState :=
  p.foldl (step (agiantOf x.length)) initState

/-- C7: within a single invocation on `x = p ++ r ++ s`, after every loop
iteration the accumulators `s1`, `s2`, `s3` and the pivots `x1max`, `x3max`
are non-negative, and `x1max` and `x3max` are monotonically non-decreasing
from the state after `p` to the state after `p ++ r`; no state is carried
across invocations (the embedding is a pure function of `x` alone). -/
theorem loop_invariant_mono (p r s : List ℚ) :
    Nonneg (stateAfter (p ++ r ++ s) (p ++ r)) ∧
      (stateAfter (p ++ r ++ s) p).x1max
        ≤ (stateAfter (p ++ r ++ s) (p ++ r)).x1max ∧
      (stateAfter (p ++ r ++ s) p).x3max
        ≤ (stateAfter (p ++ r ++ s) (p ++ r)).x3max := by
  unfold stateAfter
  rw [List.foldl_append]
  have hp : Inv (p.foldl (step (agiantOf (p ++ r ++ s).length)) initState) :=
    (foldl_preserves _ p initState initState_inv).1
  have h := foldl_preserves (agiantOf (p ++ r ++ s).length) r _ hp
  exact ⟨h.1.1, h.2.1, h.2.2⟩

/-- The three magnitude categories of the spec's data model. -/
inductive Bucket where
  | small
  | intermediate
  | large
deriving DecidableEq

/-- Follows the spec's words: classification of one element by `xabs`,
intermediate when `rdwarf < xabs < agiant`, small when `xabs <= rdwarf`,
large otherwise. -/
def classify (agiant xabs : ℚ) : Bucket :=
  if rdwarf < xabs ∧ xabs < agiant then Bucket.intermediate
  else if xabs ≤ rdwarf then Bucket.small
  else Bucket.large

/-- Follows the spec's words: the per-bucket update of the loop body
(§4.1 step 3), dispatching on the classification. -/
def stepSpec (agiant : ℚ) (st : EnormState) (xi : ℚ) : EnormState :=
  match classify agiant |xi| with
  | Bucket.intermediate => { st with s2 := st.s2 + |xi| ^ 2 }
  | Bucket.small =>
      if st.x3max < |xi| then
        { st with s3 := 1 + st.s3 * (st.x3max / |xi|) ^ 2, x3max := |xi| }
      else if |xi| ≠ 0 then { st with s3 := st.s3 + (|xi| / st.x3max) ^ 2 }
      else st
  | Bucket.large =>
      if st.x1max < |xi| then
        { st with s1 := 1 + st.s1 * (st.x1max / |xi|) ^ 2, x1max := |xi| }
      else { st with s1 := st.s1 + (|xi| / st.x1max) ^ 2 }

/-- C5: each element is classified via `xabs = |x[i]|` into exactly one
bucket by the given tests — intermediate iff `rdwarf < xabs < agiant`, small
iff `xabs ≤ rdwarf`, large otherwise — and the loop body of `enorm_` performs
exactly the corresponding accumulator update of the spec. -/
theorem step_classification (a xi : ℚ) (st : EnormState) :
    (classify a |xi| = Bucket.intermediate ↔ rdwarf < |xi| ∧ |xi| < a) ∧
      (classify a |xi| = Bucket.small ↔ |xi| ≤ rdwarf) ∧
      (classify a |xi| = Bucket.large
        ↔ ¬(rdwarf < |xi| ∧ |xi| < a) ∧ ¬(|xi| ≤ rdwarf)) ∧
      step a st xi = stepSpec a st xi := by
  by_cases h1 : rdwarf < |xi| ∧ |xi| < a
  · have h2 : ¬ |xi| ≤ rdwarf := not_le.mpr h1.1
    exact ⟨by simp [classify, h1],
      by simp [classify, h1, h2],
      by simp [classify, h1],
      by simp [step, stepD, stepSpec, classify, h1]⟩
  · by_cases h2 : |xi| ≤ rdwarf
    · refine ⟨by simp [classify, h1, h2], by simp [classify, h1, h2],
        by simp [classify, h1, h2], ?_⟩
      by_cases h3 : |xi| ≤ st.x3max
      · by_cases h4 : xi = 0
        · have h3' : (0 : ℚ) ≤ st.x3max := by rwa [h4, abs_zero] at h3
          simp [step, stepD, stepSpec, classify, h4, h3',
            not_lt.mpr rdwarf_pos.le, rdwarf_pos.le, not_lt.mpr h3']
        · simp [step, stepD, stepSpec, classify, h1, h2, h3, not_lt.mpr h3, h4]
      · simp [step, stepD, stepSpec, classify, h1, h2, h3, lt_of_not_le h3]
    · refine ⟨by simp [classify, h1, h2], by simp [classify, h1, h2],
        by simp [classify, h1, h2], ?_⟩
      by_cases h3 : |xi| ≤ st.x1max
      · simp [step, stepD, stepSpec, classify, h1, h2, h3, not_lt.mpr h3]
      · simp [step, stepD, stepSpec, classify, h1, h2, h3, lt_of_not_le h3]

lemma enormState_single (a b : ℕ) (v : ℚ) :
    enormState (List.replicate a (0 : ℚ) ++ v :: List.replicate b 0)
      = step (agiantOf (List.replicate a (0 : ℚ)
          ++ v :: List.replicate b 0).length) initState v := by
  unfold enormState
  rw [List.foldl_append, foldl_replicate_zero _ a initState initState_inv,
    List.foldl_cons,
    foldl_replicate_zero _ b _ ((step_preserves _ v initState initState_inv).1)]

lemma combine_step_init (A v : ℚ) (hv : v ≠ 0) :
    combine (step A initState v) = ((|v| : ℚ) : ℝ) := by
  have habs : 0 < |v| := abs_pos.mpr hv
  by_cases hmid : rdwarf < |v| ∧ |v| < A
  · have hstep : step A initState v = ⟨0, 0 + |v| ^ 2, 0, 0, 0⟩ := by
      simp [step, stepD, initState, hmid]
    rw [hstep]
    have hs2 : (0 : ℚ) + |v| ^ 2 ≠ 0 := by positivity
    have hge : ((⟨0, 0 + |v| ^ 2, 0, 0, 0⟩ : EnormState)).s2
        ≥ ((⟨0, 0 + |v| ^ 2, 0, 0, 0⟩ : EnormState)).x3max := by
      show (0 : ℚ) ≤ 0 + |v| ^ 2
      positivity
    have e : ((0 : ℚ) + |v| ^ 2) * (1 + 0 / (0 + |v| ^ 2) * (0 * 0)) = |v| ^ 2 := by
      norm_num
    simp only [combine, midHigh, hge, hs2, if_true, if_pos]
    rw [if_neg (by norm_num : ¬ ((0 : ℚ) ≠ 0)), if_pos hs2, e,
      show ((|v| ^ 2 : ℚ) : ℝ) = ((|v| : ℚ) : ℝ) ^ 2 by push_cast; ring]
    exact Real.sqrt_sq (by positivity)
  · by_cases hsm : |v| ≤ rdwarf
    · have hstep : step A initState v = ⟨0, 0, 1, 0, |v|⟩ := by
        simp [step, stepD, initState, hmid, hsm, not_le.mpr habs]
      rw [hstep]
      show combine ⟨0, 0, 1, 0, |v|⟩ = ((|v| : ℚ) : ℝ)
      simp [combine]
    · have hstep : step A initState v = ⟨1, 0, 0, |v|, 0⟩ := by
        simp [step, stepD, initState, hmid, hsm, not_le.mpr habs]
      rw [hstep]
      show combine ⟨1, 0, 0, |v|, 0⟩ = ((|v| : ℚ) : ℝ)
      simp [combine]

/-- C9: for a vector whose only nonzero element is `v` (any number of zeros
around it, the length-1 case included), `enorm_` returns exactly `|v|` in the
exact-arithmetic embedding, whichever magnitude bucket `v` falls into. -/
theorem enorm_single_nonzero (a b : ℕ) (v : ℚ) (hv : v ≠ 0) :
    enorm (List.replicate a (0 : ℚ) ++ v :: List.replicate b 0)
      = ((|v| : ℚ) : ℝ) := by
  unfold enorm
  rw [enormState_single]
  exact combine_step_init _ v hv

/-- Witness for C9 at the concrete vector `[0, 3, 0]`. -/
theorem enorm_single_nonzero_witness :
    (3 : ℚ) ≠ 0 ∧
      enorm (List.replicate 1 (0 : ℚ) ++ (3 : ℚ) :: List.replicate 1 0)
        = ((|(3 : ℚ)| : ℚ) : ℝ) :=
  ⟨by decide, enorm_single_nonzero 1 1 3 (by decide)⟩

/-- One loop iteration with the input array threaded through as state: the
iteration reads `x[i]` and updates only the local accumulators, so the array
component is passed on as it was received (the C body contains no store
through `x`). -/
def memStep (a : ℚ) (q : EnormState × (ℕ → ℚ)) (i : ℕ) : EnormState × (ℕ → ℚ) :=
  (step a q.1 (q.2 i), q.2)

/-- The classification loop over indices `0, ..., n-1`, threading the array. -/
def enormMemLoop (a : ℚ) (n : ℕ) (p : EnormState × (ℕ → ℚ)) :
    EnormState × (ℕ → ℚ) :=
  (List.range n).foldl (memStep a) p

/-- The invocation `enorm_(n, x)` on an array modelled as `ℕ → ℚ`, returning
the result together with the array as it stands after the call. -/
noncomputable def enormMem (n : ℕ) (x : ℕ → ℚ) : ℝ × (ℕ → ℚ) :=
  (combine (enormMemLoop (agiantOf n) n (initState, x)).1,
    (enormMemLoop (agiantOf n) n (initState, x)).2)

lemma memLoop_snd (a : ℚ) (l : List ℕ) (p : EnormState × (ℕ → ℚ)) :
    (l.foldl (memStep a) p).2 = p.2 := by
  induction l generalizing p with
  | nil => rfl
  | cons i t ih => rw [List.foldl_cons]; exact ih (memStep a p i)

lemma memLoop_fst (a : ℚ) (l : List ℕ) (st : EnormState) (x : ℕ → ℚ) :
    (l.foldl (memStep a) (st, x)).1 = (l.map x).foldl (step a) st := by
  induction l generalizing st with
  | nil => rfl
  | cons i t ih =>
    rw [List.foldl_cons, List.map_cons, List.foldl_cons]
    exact ih (step a st (x i))

lemma range_map_getD (l : List ℚ) :
    (List.range l.length).map (fun i => l.getD i 0) = l := by
  apply List.ext_getElem
  · simp
  · intro i h1 h2
    simp [List.getElem?_eq_getElem h2]

/-- C10: `enorm_` has no side effects: in the memory-threaded embedding the
input array comes back unchanged, the result is determined by the first `n`
element values alone (two invocations on equal data return equal results),
and on lists the routine agrees with the pure function `enorm`. -/
theorem enormMem_pure (n : ℕ) (x x' : ℕ → ℚ) (h : ∀ i, i < n → x i = x' i) :
    (enormMem n x).2 = x ∧ (enormMem n x).1 = (enormMem n x').1 ∧
      ∀ l : List ℚ, (enormMem l.length (fun i => l.getD i 0)).1 = enorm l := by
  refine ⟨memLoop_snd _ _ _, ?_, ?_⟩
  · show combine (enormMemLoop (agiantOf n) n (initState, x)).1
      = combine (enormMemLoop (agiantOf n) n (initState, x')).1
    unfold enormMemLoop
    rw [memLoop_fst, memLoop_fst,
      List.map_congr_left (fun i hi => h i (List.mem_range.mp hi))]
  · intro l
    show combine (enormMemLoop (agiantOf l.length) l.length
        (initState, fun i => l.getD i 0)).1 = combine (enormState l)
    unfold enormMemLoop
    rw [memLoop_fst, range_map_getD]
    rfl

/-- Witness for C10 at `n = 2` on the constant-1 array. -/
theorem enormMem_pure_witness :
    (∀ i, i < 2 → (fun _ : ℕ => (1 : ℚ)) i = (fun _ : ℕ => (1 : ℚ)) i) ∧
      ((enormMem 2 (fun _ : ℕ => (1 : ℚ))).2 = (fun _ : ℕ => (1 : ℚ)) ∧
        (enormMem 2 (fun _ : ℕ => (1 : ℚ))).1
          = (enormMem 2 (fun _ : ℕ => (1 : ℚ))).1 ∧
        ∀ l : List ℚ, (enormMem l.length (fun i => l.getD i 0)).1 = enorm l) :=
  ⟨fun _ _ => rfl, enormMem_pure 2 _ _ (fun _ _ => rfl)⟩

end Enorm
